import Mathlib

/-!
# git-cl: a verified model of the changelist engine

This file gives a shallow embedding of the `git-cl` changelist engine — the
path normaliser, the name validator, the two persistent stores and the
commands (`add`, `remove`, `delete`, `stage`, `unstage`, `commit`,
`checkout`, `stash`, `unstash`, `branch`) — together with theorems about the
engine's documented properties.  The repository snapshot holds the test
suite but not the engine's own source, so the definitions below are
modelled from the specification (each such definition says so in its doc
comment); the end-to-end test scripts were used to cross-check concrete
behaviours.
-/

namespace GitCl

/-- Repo-root-relative POSIX path string, as stored in `cl.json`. -/
abbrev Path := String

/-! ## Path normaliser (spec §4.3)

Paths are manipulated as lists of components; `splitPath`/`joinPath`
convert to and from the POSIX string form. -/

/-- Split a character list on `/` (accumulating the current component in
reverse). -/
def splitPathAux : List Char → List Char → List String
  | [], cur => [String.mk cur.reverse]
  | c :: rest, cur =>
    if c = '/' then String.mk cur.reverse :: splitPathAux rest []
    else splitPathAux rest (c :: cur)

/-- Split a POSIX path string on `/`. -/
def splitPath (s : String) : List String := splitPathAux s.data []

/-- Join path components with `/`. -/
def joinPath : List String → String
  | [] => ""
  | [c] => c
  | c :: cs => c ++ "/" ++ joinPath cs

/-- Does the path string start with `/`? -/
def isAbsolute (s : String) : Bool :=
  match s.data with
  | [] => false
  | c :: _ => c = '/'

/-- Modelled from the spec: one step of the lexical resolution of §4.3 (the
normaliser's source is absent from the snapshot).  Empty and `.` components
are skipped, `..` pops the last resolved component and fails (the path
escapes the root) on an empty stack, and a plain component is appended. -/
def normStep (st : Option (List String)) (c : String) : Option (List String) :=
  match st with
  | none => none
  | some acc =>
    if c = "" ∨ c = "." then some acc
    else if c = ".." then
      if acc.isEmpty then none else some acc.dropLast
    else some (acc ++ [c])

/-- Modelled from the spec: §4.3 lexical normalisation of a component list,
starting from the repo root.  `none` means the path escaped the root. -/
def normalizeComponents (cs : List String) : Option (List String) :=
  cs.foldl normStep (some [])

/-- Modelled from the spec: §4.3 path normaliser.  `root` is the absolute
repo root and `cwd` the current directory relative to the root, both as
component lists.  Absolute paths are accepted only under the root; relative
paths are resolved against `cwd`.  Returns the repo-root-relative POSIX
string, or `none` for an invalid or unsafe path. -/
def normalizePath (root cwd : List String) (p : String) : Option Path :=
  if isAbsolute p then
    match normalizeComponents (splitPath p) with
    | none => none
    | some abs =>
      if abs.take root.length = root then some (joinPath (abs.drop root.length))
      else none
  else
    (normalizeComponents (cwd ++ splitPath p)).map joinPath

/-- Modelled from the spec: the display inverse of §4.3 — render a
repo-relative component list relative to `cwd`, emitting `..` components
as needed. -/
def relDisplayComps : List String → List String → List String
  | [], rp => rp
  | c :: cs, [] => (c :: cs).map (fun _ => "..")
  | c :: cs, r :: rs =>
    if c = r then relDisplayComps cs rs
    else ((c :: cs).map (fun _ => "..")) ++ r :: rs

/-- Render a stored repo-relative path for display from directory `cwd`. -/
def displayPath (cwd : List String) (rp : Path) : String :=
  joinPath (relDisplayComps cwd (splitPath rp))

/-- A canonical path component: nonempty and not a navigation entry. -/
def IsPlainComp (c : String) : Prop := c ≠ "" ∧ c ≠ "." ∧ c ≠ ".."

instance (c : String) : Decidable (IsPlainComp c) := by
  unfold IsPlainComp; infer_instance

/-! ## Name validator (spec §4.2) -/

/-- Modelled from the spec: §4.2 forbidden characters — ASCII whitespace,
the listed specials, and control characters (whitespace other than the
space itself is a control character). -/
def forbiddenChar (c : Char) : Bool :=
  c == ' ' || c == '/' || c == '\\' || c == '@' || c == ':' || c == '~' ||
  c == '^' || c == '*' || c == '?' || c == '[' ||
  decide (c.toNat < 32) || c == (Char.ofNat 127)

/-- Modelled from the spec: §4.2 changelist-name validator.  A name is valid
iff its length is in `[1, 100]`, it is not exactly `HEAD`, it is not made
only of `.` characters, and it has no forbidden character. -/
def isValidName (n : String) : Bool :=
  decide (1 ≤ n.length) && decide (n.length ≤ 100) && !(n == "HEAD") &&
  !(n.data.all (fun c => c == '.')) && n.data.all (fun c => !forbiddenChar c)

/-! ## Stores (spec §3, §4.4)

`cl.json` is an insertion-ordered JSON object mapping names to path lists;
it is modelled as an association list. -/

/-- The active store (`cl.json`): insertion-ordered map from changelist
name to its path list. -/
abbrev Store := List (String × List Path)

/-- Look up the path list of changelist `n`. -/
def findCl (s : Store) (n : String) : Option (List Path) :=
  (s.find? (fun e => e.1 == n)).map Prod.snd

/-- Does changelist `n` exist in the store? -/
def hasCl (s : Store) (n : String) : Bool := s.any (fun e => e.1 == n)

/-- Drop changelist `n` from the store. -/
def eraseCl (s : Store) (n : String) : Store := s.filter (fun e => !(e.1 == n))

/-- Append `ps` to `old`, preserving insertion order and skipping
duplicates. -/
def insertPaths (old ps : List Path) : List Path :=
  ps.foldl (fun acc p => if acc.contains p then acc else acc ++ [p]) old

/-- Remove every path of `ps` from `l`. -/
def removePaths (l ps : List Path) : List Path := l.filter (fun p => !ps.contains p)

/-- Modelled from the spec: §4.4 `reassign` — insert `ps` into `store[n]`
(creating the changelist if absent) and remove those paths from every other
changelist; changelists emptied by the removal are retained. -/
def reassign (s : Store) (n : String) (ps : List Path) : Store :=
  if hasCl s n then
    s.map (fun e =>
      (e.1, if e.1 == n then insertPaths e.2 ps else removePaths e.2 ps))
  else
    (s.map (fun e => (e.1, removePaths e.2 ps))) ++ [(n, insertPaths [] ps)]

/-! ## Git-side state

The working tree and `HEAD` are modelled as maps from repo-relative path to
file content; `some c` means the file exists with content `c`, `none` that
it is absent.  The index is modelled as the set of staged paths.  A stash
ref is denoted by the saved contents it lets Git restore. -/

/-- Path-to-content map (working tree, `HEAD` snapshot, saved stash
contents). -/
abbrev WT := List (Path × Option String)

/-- Content of `p` in the map (`none` when the file is absent). -/
def wtLookup (wt : WT) (p : Path) : Option String :=
  match wt.find? (fun e => e.1 == p) with
  | some e => e.2
  | none => none

/-- Set the content of `p` (with `none`, delete the file). -/
def wtSet (wt : WT) (p : Path) (c : Option String) : WT :=
  (p, c) :: wt.filter (fun e => !(e.1 == p))

/-- Copy the contents of the paths `ps` from `src` into `dst` (used by
stash to revert listed paths to `HEAD`, and by commit to record the
worktree contents of the committed paths). -/
def syncPaths (dst src : WT) (ps : List Path) : WT :=
  ps.foldl (fun d q => wtSet d q (wtLookup src q)) dst

/-- Write each saved `(path, content)` pair back into the map (used by
`git stash pop`). -/
def restoreSaved (wt : WT) (saved : WT) : WT :=
  saved.foldl (fun w pc => wtSet w pc.1 pc.2) wt

/-- A stashed changelist (`cl-stashes.json` entry): the frozen path list,
the denotation of its Git stash ref (the saved worktree contents), and the
recorded file count. -/
structure StashedEntry where
  paths : List Path
  saved : WT
  fileCount : Nat
deriving DecidableEq

/-- The whole observable state: the two stores, the working tree, the
index, the `HEAD` snapshot, the commit log (message and committed paths)
and the current branch name. -/
structure Repo where
  active : Store
  stashed : List (String × StashedEntry)
  worktree : WT
  index : List Path
  head : WT
  commits : List (String × List Path)
  branch : String
deriving DecidableEq

/-- Look up a stashed entry by name. -/
def findStash (s : List (String × StashedEntry)) (n : String) : Option StashedEntry :=
  (s.find? (fun e => e.1 == n)).map Prod.snd

/-- Modelled from the spec: the porcelain `XY` code of a path (§3,
WorkingTreeView), restricted to the distinctions the engine consumes —
`??` for untracked files is the code every command branches on. -/
def porcelain (r : Repo) (p : Path) : String :=
  if (wtLookup r.head p).isNone then
    if (wtLookup r.worktree p).isNone then "  "
    else if r.index.contains p then "A " else "??"
  else
    if (wtLookup r.worktree p).isNone then " D"
    else if wtLookup r.head p = wtLookup r.worktree p then
      (if r.index.contains p then "M " else "  ")
    else (if r.index.contains p then "MM" else " M")

/-! ## Commands (spec §4.6) -/

/-- Outcome of one command: the new state, the exit code and the printed
messages. -/
structure CmdResult where
  repo : Repo
  exitCode : Nat
  messages : List String
deriving DecidableEq

/-- The user-supplied paths paired with their normalisation results. -/
def addNormed (root cwd : List String) (raws : List String) :
    List (String × Option Path) :=
  raws.map (fun p => (p, normalizePath root cwd p))

/-- The successfully normalised paths, in order. -/
def addGood (root cwd : List String) (raws : List String) : List Path :=
  (addNormed root cwd raws).filterMap (fun e => e.2)

/-- One `invalid or unsafe path` message per rejected path. -/
def addBadMsgs (root cwd : List String) (raws : List String) : List String :=
  (addNormed root cwd raws).filterMap (fun e =>
    if e.2.isNone then some ("invalid or unsafe path: " ++ e.1) else none)

/-- One `does not exist` warning per accepted path that is absent from the
working tree. -/
def addWarnMsgs (r : Repo) (root cwd : List String) (raws : List String) :
    List String :=
  (insertPaths [] (addGood root cwd raws)).filterMap (fun p =>
    if (wtLookup r.worktree p).isNone
    then some ("Warning: '" ++ p ++ "' does not exist") else none)

/-- Modelled from the spec: §4.6 `add` — validate the name, normalise each
path (message per invalid path, warning per non-existent one),
deduplicate, `reassign`.  Exit 2 on missing arguments, 1 on an invalid
name or when every path is invalid. -/
def cmd_add (root cwd : List String) (r : Repo) (name : String)
    (raws : List String) : CmdResult :=
  if raws.isEmpty then ⟨r, 2, ["usage: git cl add <name> <paths...>"]⟩
  else if !isValidName name then ⟨r, 1, ["Invalid changelist name: " ++ name]⟩
  else if (addGood root cwd raws).isEmpty then ⟨r, 1, addBadMsgs root cwd raws⟩
  else
    ⟨{ r with active := reassign r.active name (insertPaths [] (addGood root cwd raws)) },
      0,
      addBadMsgs root cwd raws ++ addWarnMsgs r root cwd raws ++
        ["Added to '" ++ name ++ "': " ++
          toString (insertPaths [] (addGood root cwd raws)).length ++ " file(s)"]⟩

/-- Modelled from the spec: §4.6 `remove` — drop the listed (normalised)
paths from `active[name]`; the changelist is kept even when emptied. -/
def cmd_remove (root cwd : List String) (r : Repo) (name : String)
    (raws : List String) : CmdResult :=
  match findCl r.active name with
  | none => ⟨r, 1, ["Changelist '" ++ name ++ "' not found"]⟩
  | some _ =>
    let ps := raws.filterMap (normalizePath root cwd)
    ⟨{ r with active := r.active.map (fun e =>
        (e.1, if e.1 == name then removePaths e.2 ps else e.2)) }, 0, []⟩

/-- Modelled from the spec: §4.6 `delete` — drop each named changelist that
exists; exit 1 when none did. -/
def cmd_delete (r : Repo) (names : List String) : CmdResult :=
  let found := names.filter (fun n => hasCl r.active n)
  ⟨{ r with active := r.active.filter (fun e => !(names.contains e.1)) },
    if found.isEmpty then 1 else 0,
    (names.filter (fun n => !hasCl r.active n)).map
      (fun n => "Changelist '" ++ n ++ "' not found")⟩

/-- Modelled from the spec: §4.6 `delete --all` — drop every active
changelist. -/
def cmd_deleteAll (r : Repo) : CmdResult := ⟨{ r with active := [] }, 0, []⟩

/-- Modelled from the spec: §4.6 `stage` — `git add` the changelist's
tracked paths (porcelain not `??`); the changelist is kept by default and
dropped with `--delete`. -/
def cmd_stage (r : Repo) (name : String) (del : Bool) : CmdResult :=
  match findCl r.active name with
  | none => ⟨r, 1, ["Changelist '" ++ name ++ "' not found"]⟩
  | some ps =>
    let tracked := ps.filter (fun p => !(porcelain r p == "??"))
    let r1 := { r with index := insertPaths r.index tracked }
    ⟨if del then { r1 with active := eraseCl r1.active name } else r1, 0, []⟩

/-- Modelled from the spec: §4.6 `unstage` — `git reset` every path of the
changelist; keep by default, drop with `--delete`. -/
def cmd_unstage (r : Repo) (name : String) (del : Bool) : CmdResult :=
  match findCl r.active name with
  | none => ⟨r, 1, ["Changelist '" ++ name ++ "' not found"]⟩
  | some ps =>
    let r1 := { r with index := removePaths r.index ps }
    ⟨if del then { r1 with active := eraseCl r1.active name } else r1, 0, []⟩

/-- Modelled from the spec: §4.6 `commit` — stage and commit only the
tracked paths; with no tracked path, print the warning and exit 0 with no
commit.  The changelist is deleted after a successful commit unless
`--keep` is given. -/
def cmd_commit (r : Repo) (name msg : String) (keep : Bool) : CmdResult :=
  match findCl r.active name with
  | none => ⟨r, 1, ["Changelist '" ++ name ++ "' not found"]⟩
  | some ps =>
    let tracked := ps.filter (fun p => !(porcelain r p == "??"))
    if tracked.isEmpty then
      ⟨r, 0, ["No tracked files to commit in '" ++ name ++ "'"]⟩
    else
      ⟨{ r with
          head := syncPaths r.head r.worktree tracked,
          index := removePaths r.index tracked,
          commits := r.commits ++ [(msg, tracked)],
          active := if keep then r.active else eraseCl r.active name }, 0,
        ["Committed '" ++ name ++ "'"]⟩

/-- Modelled from the spec: §4.6 `checkout` — revert the union of the named
changelists' paths to `HEAD` (untracked files are removed from disk); with
`--delete` also drop the changelists.  The confirmation callback is taken
as answered yes. -/
def cmd_checkout (r : Repo) (names : List String) (del : Bool) : CmdResult :=
  let ps := names.foldl (fun acc n => acc ++ ((findCl r.active n).getD [])) []
  ⟨{ r with
      worktree := syncPaths r.worktree r.head ps,
      active := if del then r.active.filter (fun e => !(names.contains e.1))
                else r.active }, 0, []⟩

/-- Modelled from the spec: §4.6 `stash`, single-changelist primitive —
save the worktree contents of `active[name]`, revert those paths to
`HEAD`, move the changelist to the stashed store.  `none` when the
changelist is not active. -/
def stashOne (r : Repo) (name : String) : Option Repo :=
  match findCl r.active name with
  | none => none
  | some ps =>
    some { r with
      active := eraseCl r.active name,
      stashed := r.stashed ++
        [(name, ⟨ps, ps.map (fun p => (p, wtLookup r.worktree p)), ps.length⟩)],
      worktree := syncPaths r.worktree r.head ps }

/-- Modelled from the spec: §4.6 `stash <name>`. -/
def cmd_stash (r : Repo) (name : String) : CmdResult :=
  match stashOne r name with
  | none => ⟨r, 1, ["Changelist '" ++ name ++ "' not found"]⟩
  | some r1 => ⟨r1, 0, ["Stashed '" ++ name ++ "'"]⟩

/-- Run the stash primitive for each name in turn (a name no longer active
is skipped). -/
def foldStash (r : Repo) (names : List String) : Repo :=
  names.foldl (fun s n => (stashOne s n).getD s) r

/-- Modelled from the spec: §4.6 `stash --all` — stash every active
changelist in insertion order. -/
def cmd_stashAll (r : Repo) : CmdResult :=
  ⟨foldStash r (r.active.map Prod.fst), 0, []⟩

/-- Modelled from the spec: §4.6 `unstash` — pop the entry's stash ref
(restoring the saved contents) and move the name back to the active store
with its frozen paths. -/
def cmd_unstash (r : Repo) (name : String) : CmdResult :=
  match findStash r.stashed name with
  | none => ⟨r, 1, ["Stashed changelist '" ++ name ++ "' not found"]⟩
  | some e =>
    ⟨{ r with
        worktree := restoreSaved r.worktree e.saved,
        stashed := r.stashed.filter (fun x => !(x.1 == name)),
        active := r.active ++ [(name, e.paths)] }, 0,
      ["Unstashed '" ++ name ++ "'"]⟩

/-- Modelled from the spec: §4.6 `unstash --all`. -/
def cmd_unstashAll (r : Repo) : CmdResult :=
  ⟨(r.stashed.map Prod.fst).foldl (fun s n => (cmd_unstash s n).repo) r, 0, []⟩

/-- Modelled from the spec: §4.6 `branch` — stash every other active
changelist (in insertion order), then create and switch to the target
branch (defaulting to the changelist name); the target changelist's
worktree modifications travel onto the new branch. -/
def cmd_branch (r : Repo) (name : String) (branchName : Option String) : CmdResult :=
  match findCl r.active name with
  | none => ⟨r, 1, ["Changelist '" ++ name ++ "' not found"]⟩
  | some _ =>
    let target := branchName.getD name
    let others := (r.active.filter (fun e => !(e.1 == name))).map Prod.fst
    let r1 := foldStash r others
    ⟨{ r1 with branch := target }, 0,
      ["Switched to branch '" ++ target ++ "'",
       "Ready to work on " ++ name]⟩

/-! ## The command language and reachable states (spec §8) -/

/-- One git-cl invocation (read-only commands are included as no-ops on
the modelled state). -/
inductive Cmd where
  | add (cwd : List String) (name : String) (raws : List String)
  | remove (cwd : List String) (name : String) (raws : List String)
  | delete (names : List String)
  | deleteAll
  | status
  | diff (names : List String)
  | stage (name : String) (del : Bool)
  | unstage (name : String) (del : Bool)
  | commit (name msg : String) (keep : Bool)
  | checkout (names : List String) (del : Bool)
  | stash (name : String)
  | stashAll
  | unstash (name : String)
  | unstashAll
  | branch (name : String) (branchName : Option String)
deriving DecidableEq

/-- Execute one command (a failing command leaves the state unchanged, as
each command converts its errors to an exit code at its boundary). -/
def exec (root : List String) (r : Repo) : Cmd → Repo
  | .add cwd n ps => (cmd_add root cwd r n ps).repo
  | .remove cwd n ps => (cmd_remove root cwd r n ps).repo
  | .delete ns => (cmd_delete r ns).repo
  | .deleteAll => (cmd_deleteAll r).repo
  | .status => r
  | .diff _ => r
  | .stage n d => (cmd_stage r n d).repo
  | .unstage n d => (cmd_unstage r n d).repo
  | .commit n m k => (cmd_commit r n m k).repo
  | .checkout ns d => (cmd_checkout r ns d).repo
  | .stash n => (cmd_stash r n).repo
  | .stashAll => (cmd_stashAll r).repo
  | .unstash n => (cmd_unstash r n).repo
  | .unstashAll => (cmd_unstashAll r).repo
  | .branch n b => (cmd_branch r n b).repo

/-- Run a command sequence. -/
def runCmds (root : List String) (r : Repo) (cs : List Cmd) : Repo :=
  cs.foldl (exec root) r

/-- States reachable by legal command sequences from a fresh repository
(both stores empty, arbitrary Git-side state). -/
inductive Reachable (root : List String) : Repo → Prop where
  | init (wt : WT) (index : List Path) (head : WT) (br : String) :
      Reachable root ⟨[], [], wt, index, head, [], br⟩
  | step (r : Repo) (c : Cmd) : Reachable root r → Reachable root (exec root r c)

/-- Is the command an `unstash` (single or `--all`)? -/
def Cmd.isUnstash : Cmd → Bool
  | .unstash _ => true
  | .unstashAll => true
  | _ => false

/-- States reachable without ever running `unstash`. -/
inductive ReachableNU (root : List String) : Repo → Prop where
  | init (wt : WT) (index : List Path) (head : WT) (br : String) :
      ReachableNU root ⟨[], [], wt, index, head, [], br⟩
  | step (r : Repo) (c : Cmd) : c.isUnstash = false → ReachableNU root r →
      ReachableNU root (exec root r c)

/-- How many active changelists own path `p` (spec §8, Single-owner). -/
def owners (s : Store) (p : Path) : Nat :=
  (s.filter (fun e => e.2.contains p)).length

/-- The store's structural invariant: names are unique and path lists are
pairwise disjoint. -/
def StoreInv (s : Store) : Prop :=
  (s.map Prod.fst).Nodup ∧ s.Pairwise (fun a b => ∀ p ∈ a.2, p ∉ b.2)

instance (s : Store) : Decidable (StoreInv s) := by
  unfold StoreInv; infer_instance

/-! ## Generic lemmas for key-indexed association lists -/

theorem find?_key_cons {α : Type} (e : String × α) (t : List (String × α)) (m : String) :
    List.find? (fun x => x.1 == m) (e :: t) =
      if e.1 = m then some e else List.find? (fun x => x.1 == m) t := by
  rw [List.find?_cons]
  by_cases hb : e.1 = m
  · rw [if_pos hb]
    have hbe : (e.1 == m) = true := by simp [hb]
    rw [hbe]
  · rw [if_neg hb]
    have hbe : (e.1 == m) = false := by simp [hb]
    rw [hbe]

theorem find?_key_filter {α : Type} (l : List (String × α)) (n m : String) (h : m ≠ n) :
    List.find? (fun x => x.1 == m) (l.filter (fun x => !(x.1 == n))) =
      List.find? (fun x => x.1 == m) l := by
  induction l with
  | nil => rfl
  | cons e t ih =>
    rw [List.filter_cons]
    by_cases hen : e.1 = n
    · rw [if_neg (by simp [hen]), ih, find?_key_cons,
        if_neg (by intro hc; rw [hen] at hc; exact h hc.symm)]
    · rw [if_pos (by simp [hen]), find?_key_cons, find?_key_cons]
      by_cases hem : e.1 = m
      · rw [if_pos hem, if_pos hem]
      · rw [if_neg hem, if_neg hem, ih]

theorem find?_key_map {α β : Type} (l : List (String × α)) (f : String × α → String × β)
    (hf : ∀ e, (f e).1 = e.1) (m : String) :
    List.find? (fun x => x.1 == m) (l.map f) =
      (List.find? (fun x => x.1 == m) l).map f := by
  induction l with
  | nil => rfl
  | cons e t ih =>
    rw [List.map_cons, find?_key_cons, find?_key_cons, hf e]
    by_cases hem : e.1 = m
    · rw [if_pos hem, if_pos hem, Option.map_some']
    · rw [if_neg hem, if_neg hem, ih]

/-! ## Basic lemmas on the content maps -/

theorem wtLookup_wtSet_same (wt : WT) (p : Path) (c : Option String) :
    wtLookup (wtSet wt p c) p = c := by
  unfold wtLookup wtSet
  rw [find?_key_cons, if_pos rfl]

theorem wtLookup_wtSet_ne (wt : WT) (p q : Path) (c : Option String) (h : q ≠ p) :
    wtLookup (wtSet wt p c) q = wtLookup wt q := by
  unfold wtLookup wtSet
  rw [find?_key_cons, if_neg (fun hc => h hc.symm), find?_key_filter wt p q h]

theorem syncPaths_cons (dst src : WT) (q : Path) (t : List Path) :
    syncPaths dst src (q :: t) = syncPaths (wtSet dst q (wtLookup src q)) src t := rfl

theorem wtLookup_syncPaths_notMem (ps : List Path) (dst src : WT) (p : Path)
    (h : p ∉ ps) : wtLookup (syncPaths dst src ps) p = wtLookup dst p := by
  induction ps generalizing dst with
  | nil => rfl
  | cons q t ih =>
    have hpq : p ≠ q := fun hc => h (hc ▸ List.mem_cons_self q t)
    have ht : p ∉ t := fun hc => h (List.mem_cons_of_mem q hc)
    rw [syncPaths_cons, ih _ ht, wtLookup_wtSet_ne _ _ _ _ hpq]

theorem wtLookup_syncPaths_mem (ps : List Path) (dst src : WT) (p : Path)
    (h : p ∈ ps) : wtLookup (syncPaths dst src ps) p = wtLookup src p := by
  induction ps generalizing dst with
  | nil => cases h
  | cons q t ih =>
    rw [syncPaths_cons]
    by_cases hpt : p ∈ t
    · exact ih _ hpt
    · have hpq : p = q := by
        rcases List.mem_cons.mp h with h1 | h2
        · exact h1
        · exact absurd h2 hpt
      subst hpq
      rw [wtLookup_syncPaths_notMem _ _ _ _ hpt, wtLookup_wtSet_same]

theorem restoreSaved_cons (wt : WT) (pc : Path × Option String) (t : WT) :
    restoreSaved wt (pc :: t) = restoreSaved (wtSet wt pc.1 pc.2) t := rfl

theorem wtLookup_restoreSaved_notMem (saved : WT) (wt : WT) (p : Path)
    (h : p ∉ saved.map Prod.fst) :
    wtLookup (restoreSaved wt saved) p = wtLookup wt p := by
  induction saved generalizing wt with
  | nil => rfl
  | cons pc t ih =>
    have hp1 : p ≠ pc.1 := by
      intro hc; exact h (by simp [hc])
    have ht : p ∉ t.map Prod.fst := by
      intro hc
      simp only [List.map_cons, List.mem_cons] at h
      exact h (Or.inr hc)
    rw [restoreSaved_cons, ih _ ht, wtLookup_wtSet_ne _ _ _ _ hp1]

theorem wtLookup_restoreSaved_nodup (saved : WT) (wt : WT) (p : Path)
    (c : Option String) (hnd : (saved.map Prod.fst).Nodup) (h : (p, c) ∈ saved) :
    wtLookup (restoreSaved wt saved) p = c := by
  induction saved generalizing wt with
  | nil => cases h
  | cons pc t ih =>
    rw [restoreSaved_cons]
    rw [List.map_cons] at hnd
    rcases List.mem_cons.mp h with h1 | h2
    · subst h1
      have hpt : p ∉ t.map Prod.fst := (List.nodup_cons.mp hnd).1
      rw [wtLookup_restoreSaved_notMem _ _ _ hpt, wtLookup_wtSet_same]
    · apply ih <;> first
        | exact (List.nodup_cons.mp hnd).2
        | exact h2

/-! ## Basic lemmas on stores -/

theorem mem_insertPaths (old ps : List Path) (p : Path) :
    p ∈ insertPaths old ps ↔ p ∈ old ∨ p ∈ ps := by
  induction ps generalizing old with
  | nil => simp [insertPaths]
  | cons q t ih =>
    simp only [insertPaths, List.foldl_cons] at ih ⊢
    by_cases hq : old.contains q
    · rw [if_pos hq, ih]
      constructor
      · rintro (h | h)
        · exact Or.inl h
        · exact Or.inr (List.mem_cons_of_mem _ h)
      · rintro (h | h)
        · exact Or.inl h
        · rcases List.mem_cons.mp h with h1 | h2
          · exact Or.inl (h1 ▸ (by simpa using hq))
          · exact Or.inr h2
    · rw [if_neg hq, ih]
      simp only [List.mem_append, List.mem_singleton, List.mem_cons]
      tauto

theorem mem_removePaths (l ps : List Path) (p : Path) :
    p ∈ removePaths l ps ↔ p ∈ l ∧ p ∉ ps := by
  simp [removePaths, List.mem_filter]

theorem findCl_eq_none (s : Store) (n : String) :
    findCl s n = none ↔ ∀ e ∈ s, e.1 ≠ n := by
  simp [findCl, List.find?_eq_none]

theorem hasCl_iff (s : Store) (n : String) :
    hasCl s n = true ↔ ∃ e ∈ s, e.1 = n := by
  simp [hasCl, List.any_eq_true]

theorem findCl_isSome_of_hasCl (s : Store) (n : String) (h : hasCl s n = true) :
    (findCl s n).isSome := by
  rcases (hasCl_iff s n).mp h with ⟨e, he, hn⟩
  unfold findCl
  cases hfind : s.find? (fun x => x.1 == n) with
  | some x => rfl
  | none =>
    exact absurd hn (by simpa using List.find?_eq_none.mp hfind e he)

theorem hasCl_of_findCl (s : Store) (n : String) (l : List Path)
    (h : findCl s n = some l) : hasCl s n = true := by
  simp only [findCl, Option.map_eq_some'] at h
  rcases h with ⟨e, he, _⟩
  have hmem := List.mem_of_find?_eq_some he
  have hp := List.find?_some he
  exact (hasCl_iff s n).mpr ⟨e, hmem, by simpa using hp⟩

theorem findCl_eraseCl_self (s : Store) (n : String) :
    findCl (eraseCl s n) n = none := by
  rw [findCl_eq_none]
  intro e he
  have := (List.mem_filter.mp he).2
  simpa using this

theorem hasCl_eraseCl_self (s : Store) (n : String) :
    hasCl (eraseCl s n) n = false := by
  by_contra h
  have h2 := findCl_isSome_of_hasCl _ _ (by simpa using h)
  rw [findCl_eraseCl_self] at h2
  cases h2

theorem findCl_eraseCl_ne (s : Store) (n m : String) (h : m ≠ n) :
    findCl (eraseCl s n) m = findCl s m := by
  unfold findCl eraseCl
  rw [find?_key_filter s n m h]

theorem findCl_append (s t : Store) (n : String) :
    findCl (s ++ t) n = (findCl s n).or (findCl t n) := by
  simp only [findCl, List.find?_append]
  cases s.find? (fun e => e.1 == n) <;> simp

theorem contains_iff (l : List Path) (p : Path) : l.contains p = true ↔ p ∈ l := by
  simp [List.contains]

/-! ## Lemmas about reassign -/

theorem hasCl_false_forall (s : Store) (n : String) (h : hasCl s n = false) :
    ∀ e ∈ s, e.1 ≠ n := by
  intro e he hc
  have h2 := (hasCl_iff s n).mpr ⟨e, he, hc⟩
  rw [h] at h2
  cases h2

theorem findCl_reassign_self (s : Store) (n : String) (ps : List Path) :
    findCl (reassign s n ps) n = some (insertPaths ((findCl s n).getD []) ps) := by
  unfold reassign
  by_cases h : hasCl s n = true
  · rw [if_pos h]
    unfold findCl
    rw [find?_key_map s
      (fun e => (e.1, if e.1 == n then insertPaths e.2 ps else removePaths e.2 ps))
      (fun e => rfl) n]
    cases hfind : s.find? (fun x => x.1 == n) with
    | none =>
      have h2 := findCl_isSome_of_hasCl s n h
      rw [findCl, hfind] at h2
      cases h2
    | some e =>
      have he1 : (e.1 == n) = true := by
        have h0 := List.find?_some hfind
        exact h0
      simp [he1]
      intro hc
      exact absurd (by simpa using he1) hc
  · rw [if_neg h]
    rw [findCl_append]
    have hnone : findCl (s.map (fun e => (e.1, removePaths e.2 ps))) n = none := by
      rw [findCl_eq_none]
      intro e he
      rcases List.mem_map.mp he with ⟨x, hx, hfx⟩
      have hne := hasCl_false_forall s n (by simpa using h) x hx
      rw [← hfx]
      exact hne
    have hsn : findCl s n = none := by
      rw [findCl_eq_none]
      exact hasCl_false_forall s n (by simpa using h)
    rw [hnone, hsn, Option.none_or]
    unfold findCl
    rw [find?_key_cons, if_pos rfl]
    rfl

theorem findCl_reassign_other (s : Store) (n m : String) (ps : List Path) (h : m ≠ n) :
    findCl (reassign s n ps) m = (findCl s m).map (fun l => removePaths l ps) := by
  unfold reassign
  by_cases hn : hasCl s n = true
  · rw [if_pos hn]
    unfold findCl
    rw [find?_key_map s
      (fun e => (e.1, if e.1 == n then insertPaths e.2 ps else removePaths e.2 ps))
      (fun e => rfl) m]
    cases hfind : s.find? (fun x => x.1 == m) with
    | none => rfl
    | some e =>
      have he1 : (e.1 == m) = true := by
        have h0 := List.find?_some hfind
        exact h0
      have hne : ¬ (e.1 == n) = true := by
        simp only [beq_iff_eq] at he1 ⊢
        rw [he1]
        exact h
      simp [hne]
      intro hc
      exact absurd hc (by simpa using hne)
  · rw [if_neg hn]
    rw [findCl_append]
    have hmap : findCl (s.map (fun e => (e.1, removePaths e.2 ps))) m =
        (findCl s m).map (fun l => removePaths l ps) := by
      unfold findCl
      rw [find?_key_map s (fun e => (e.1, removePaths e.2 ps)) (fun e => rfl) m]
      cases s.find? (fun x => x.1 == m) <;> rfl
    rw [hmap]
    cases hfind : findCl s m with
    | some l => rfl
    | none =>
      have hsingle : findCl [(n, insertPaths [] ps)] m = none := by
        unfold findCl
        rw [find?_key_cons, if_neg (fun hc => h hc.symm)]
        rfl
      rw [hsingle]
      rfl

/-! ## The structural store invariant -/

theorem storeInv_nil : StoreInv [] := ⟨List.nodup_nil, List.Pairwise.nil⟩

theorem storeInv_filter (s : Store) (f : String × List Path → Bool) (h : StoreInv s) :
    StoreInv (s.filter f) := by
  obtain ⟨h1, h2⟩ := h
  exact ⟨((List.filter_sublist s).map Prod.fst).nodup h1, h2.sublist (List.filter_sublist s)⟩

theorem storeInv_shrink (s : Store) (f : String × List Path → List Path)
    (hf : ∀ e, ∀ p, p ∈ f e → p ∈ e.2) (h : StoreInv s) :
    StoreInv (s.map (fun e => (e.1, f e))) := by
  obtain ⟨h1, h2⟩ := h
  constructor
  · have hk : (s.map (fun e => (e.1, f e))).map Prod.fst = s.map Prod.fst := by
      rw [List.map_map]
      rfl
    rw [hk]
    exact h1
  · refine List.Pairwise.map _ ?_ h2
    intro a b hab p hp hpb
    exact hab p (hf a p hp) (hf b p hpb)

theorem storeInv_reassign (s : Store) (n : String) (ps : List Path) (h : StoreInv s) :
    StoreInv (reassign s n ps) := by
  obtain ⟨h1, h2⟩ := h
  unfold reassign
  by_cases hn : hasCl s n = true
  · rw [if_pos hn]
    constructor
    · have hk : (s.map (fun e =>
          (e.1, if e.1 == n then insertPaths e.2 ps else removePaths e.2 ps))).map Prod.fst =
          s.map Prod.fst := by
        rw [List.map_map]
        rfl
      rw [hk]
      exact h1
    · have hkeys : s.Pairwise (fun a b => a.1 ≠ b.1) := List.pairwise_map.mp h1
      refine List.Pairwise.map _ ?_ (h2.and hkeys)
      rintro a b ⟨hdisj, hne⟩ p hp hpb
      by_cases han : a.1 = n
      · by_cases hbn : b.1 = n
        · exact hne (han.trans hbn.symm)
        · rw [if_pos (by simpa using han)] at hp
          rw [if_neg (by simpa using hbn)] at hpb
          rcases (mem_insertPaths _ _ _).mp hp with hpa | hpps
          · exact hdisj p hpa ((mem_removePaths _ _ _).mp hpb).1
          · exact ((mem_removePaths _ _ _).mp hpb).2 hpps
      · rw [if_neg (by simpa using han)] at hp
        obtain ⟨hpa, hpnps⟩ := (mem_removePaths _ _ _).mp hp
        by_cases hbn : b.1 = n
        · rw [if_pos (by simpa using hbn)] at hpb
          rcases (mem_insertPaths _ _ _).mp hpb with hpbmem | hpps
          · exact hdisj p hpa hpbmem
          · exact hpnps hpps
        · rw [if_neg (by simpa using hbn)] at hpb
          exact hdisj p hpa ((mem_removePaths _ _ _).mp hpb).1
  · rw [if_neg hn]
    have hfresh : ∀ e ∈ s, e.1 ≠ n := hasCl_false_forall s n (by simpa using hn)
    have hshrink := storeInv_shrink s (fun e => removePaths e.2 ps)
      (fun e p hp => ((mem_removePaths _ _ _).mp hp).1) ⟨h1, h2⟩
    obtain ⟨hs1, hs2⟩ := hshrink
    have hkeys : (s.map (fun e => (e.1, removePaths e.2 ps))).map Prod.fst
        = s.map Prod.fst := by
      rw [List.map_map]
      rfl
    constructor
    · rw [List.map_append, hkeys]
      rw [List.nodup_append]
      refine ⟨h1, by simp, ?_⟩
      intro a ha hb
      have hb' : a = n := by simpa using hb
      rcases List.mem_map.mp ha with ⟨y, hy, hfy⟩
      refine hfresh y hy ?_
      rw [hfy]
      exact hb'
    · rw [List.pairwise_append]
      refine ⟨hs2, List.pairwise_singleton _ _, ?_⟩
      intro a ha b hb p hpa hpb
      rcases List.mem_map.mp ha with ⟨x, hx, hfx⟩
      rcases List.mem_singleton.mp hb with rfl
      rw [← hfx] at hpa
      have hpnps := ((mem_removePaths _ _ _).mp hpa).2
      rcases (mem_insertPaths _ _ _).mp hpb with hnil | hps
      · cases hnil
      · exact hpnps hps

/-! ## The single-owner count -/

theorem owners_le_one (s : Store) (p : Path)
    (h2 : s.Pairwise (fun a b => ∀ q ∈ a.2, q ∉ b.2)) : owners s p ≤ 1 := by
  induction s with
  | nil => simp [owners]
  | cons e t ih =>
    rw [List.pairwise_cons] at h2
    obtain ⟨hhead, htail⟩ := h2
    unfold owners
    rw [List.filter_cons]
    by_cases hc : p ∈ e.2
    · rw [if_pos (by simpa [contains_iff] using hc)]
      have hnil : t.filter (fun x => x.2.contains p) = [] := by
        rw [List.filter_eq_nil_iff]
        intro b hb hbc
        exact hhead b hb p hc ((contains_iff _ _).mp (by simpa using hbc))
      rw [hnil]
      simp
    · rw [if_neg (by simpa [contains_iff] using hc)]
      exact ih htail

/-! ## Lemmas about the stash fold -/

theorem find?_key_append {α : Type} (l₁ l₂ : List (String × α)) (m : String) :
    List.find? (fun x => x.1 == m) (l₁ ++ l₂) =
      (List.find? (fun x => x.1 == m) l₁).or (List.find? (fun x => x.1 == m) l₂) :=
  List.find?_append

theorem findStash_append (s t : List (String × StashedEntry)) (m : String) :
    findStash (s ++ t) m = (findStash s m).or (findStash t m) := by
  unfold findStash
  rw [find?_key_append]
  cases s.find? (fun x => x.1 == m) <;> simp

theorem findStash_eq_none (s : List (String × StashedEntry)) (m : String) :
    findStash s m = none ↔ ∀ e ∈ s, e.1 ≠ m := by
  simp [findStash, List.find?_eq_none]

theorem eraseCl_of_not_has (s : Store) (n : String) (h : findCl s n = none) :
    eraseCl s n = s := by
  unfold eraseCl
  rw [List.filter_eq_self]
  intro e he
  simpa using (findCl_eq_none s n).mp h e he

theorem stashOne_none (r : Repo) (n : String) (h : findCl r.active n = none) :
    stashOne r n = none := by
  unfold stashOne
  rw [h]

theorem stashOne_some (r : Repo) (n : String) (ps : List Path)
    (h : findCl r.active n = some ps) :
    stashOne r n = some { r with
      active := eraseCl r.active n,
      stashed := r.stashed ++
        [(n, ⟨ps, ps.map (fun p => (p, wtLookup r.worktree p)), ps.length⟩)],
      worktree := syncPaths r.worktree r.head ps } := by
  unfold stashOne
  rw [h]

theorem stashOne_active (r : Repo) (n : String) :
    ((stashOne r n).getD r).active = eraseCl r.active n := by
  cases hfind : findCl r.active n with
  | none => rw [stashOne_none r n hfind, Option.getD_none,
      eraseCl_of_not_has r.active n hfind]
  | some ps => rw [stashOne_some r n ps hfind, Option.getD_some]

theorem stashOne_head (r : Repo) (n : String) :
    ((stashOne r n).getD r).head = r.head := by
  cases hfind : findCl r.active n with
  | none => rw [stashOne_none r n hfind, Option.getD_none]
  | some ps => rw [stashOne_some r n ps hfind, Option.getD_some]

theorem foldStash_cons (r : Repo) (n : String) (t : List String) :
    foldStash r (n :: t) = foldStash ((stashOne r n).getD r) t := rfl

theorem foldStash_active (r : Repo) (names : List String) :
    (foldStash r names).active = r.active.filter (fun e => !(names.contains e.1)) := by
  induction names generalizing r with
  | nil => simp [foldStash]
  | cons n t ih =>
    rw [foldStash_cons, ih, stashOne_active]
    unfold eraseCl
    rw [List.filter_filter]
    apply List.filter_congr
    intro e _
    rw [List.contains_cons, Bool.not_or, Bool.and_comm]

theorem foldStash_head (r : Repo) (names : List String) :
    (foldStash r names).head = r.head := by
  induction names generalizing r with
  | nil => rfl
  | cons n t ih => rw [foldStash_cons, ih, stashOne_head]

theorem foldStash_stashed_extend (r : Repo) (names : List String) :
    ∃ t, (foldStash r names).stashed = r.stashed ++ t := by
  induction names generalizing r with
  | nil => exact ⟨[], by simp [foldStash]⟩
  | cons n t ih =>
    rw [foldStash_cons]
    rcases ih ((stashOne r n).getD r) with ⟨u, hu⟩
    rw [hu]
    cases hfind : findCl r.active n with
    | none => rw [stashOne_none r n hfind, Option.getD_none]; exact ⟨u, rfl⟩
    | some ps =>
      rw [stashOne_some r n ps hfind, Option.getD_some]
      refine ⟨(n, ⟨ps, ps.map (fun p => (p, wtLookup r.worktree p)), ps.length⟩) :: u, ?_⟩
      simp

/-- The concatenated path lists of the named changelists. -/
def pathsOfNames (s : Store) (names : List String) : List Path :=
  ((names.map (fun n => (findCl s n).getD [])).flatten)

theorem pathsOfNames_nil (s : Store) : pathsOfNames s [] = [] := rfl

theorem pathsOfNames_cons (s : Store) (n : String) (t : List String) :
    pathsOfNames s (n :: t) = ((findCl s n).getD []) ++ pathsOfNames s t := rfl

theorem pathsOfNames_congr (s s' : Store) (names : List String)
    (h : ∀ m ∈ names, findCl s' m = findCl s m) :
    pathsOfNames s' names = pathsOfNames s names := by
  unfold pathsOfNames
  congr 1
  apply List.map_congr_left
  intro m hm
  rw [h m hm]

theorem foldStash_wt (names : List String) (r : Repo) (hnd : names.Nodup) (p : Path) :
    wtLookup (foldStash r names).worktree p =
      if p ∈ pathsOfNames r.active names then wtLookup r.head p
      else wtLookup r.worktree p := by
  induction names generalizing r with
  | nil => simp [foldStash, pathsOfNames_nil]
  | cons n t ih =>
    obtain ⟨hnt, hndt⟩ := List.nodup_cons.mp hnd
    rw [foldStash_cons, ih _ hndt, pathsOfNames_cons]
    have hcl : ∀ m ∈ t, findCl ((stashOne r n).getD r).active m = findCl r.active m := by
      intro m hmt
      have hmn : m ≠ n := by
        intro hc
        rw [hc] at hmt
        exact hnt hmt
      rw [stashOne_active, findCl_eraseCl_ne _ _ _ hmn]
    rw [pathsOfNames_congr r.active _ t hcl, stashOne_head]
    cases hfind : findCl r.active n with
    | none =>
      rw [stashOne_none r n hfind, Option.getD_none]
      simp only [Option.getD_none, List.nil_append]
    | some Q =>
      rw [stashOne_some r n Q hfind, Option.getD_some]
      dsimp only
      simp only [Option.getD_some]
      by_cases h1 : p ∈ pathsOfNames r.active t
      · rw [if_pos h1, if_pos (List.mem_append.mpr (Or.inr h1))]
      · rw [if_neg h1]
        by_cases h2 : p ∈ Q
        · rw [wtLookup_syncPaths_mem _ _ _ _ h2,
            if_pos (List.mem_append.mpr (Or.inl h2))]
        · rw [wtLookup_syncPaths_notMem _ _ _ _ h2,
            if_neg (by rw [List.mem_append]; rintro (hc | hc) <;> [exact h2 hc; exact h1 hc])]

theorem findStash_foldStash (names : List String) (r : Repo) (m : String) (Q : List Path)
    (hnd : names.Nodup) (hm : m ∈ names) (hQ : findCl r.active m = some Q)
    (hs : findStash r.stashed m = none) :
    ∃ e, findStash (foldStash r names).stashed m = some e ∧ e.paths = Q := by
  induction names generalizing r with
  | nil => cases hm
  | cons n t ih =>
    obtain ⟨hnt, hndt⟩ := List.nodup_cons.mp hnd
    rw [foldStash_cons]
    by_cases hmn : m = n
    · subst hmn
      rw [stashOne_some r m Q hQ, Option.getD_some]
      rcases foldStash_stashed_extend _ t with ⟨u, hu⟩
      refine ⟨⟨Q, Q.map (fun p => (p, wtLookup r.worktree p)), Q.length⟩, ?_, rfl⟩
      rw [hu]
      dsimp only
      rw [List.append_assoc, findStash_append, hs, Option.none_or]
      show findStash ((m, _) :: u) m = _
      unfold findStash
      rw [find?_key_cons, if_pos rfl]
      rfl
    · have hmt : m ∈ t := (List.mem_cons.mp hm).resolve_left hmn
      cases hfind : findCl r.active n with
      | none =>
        rw [stashOne_none r n hfind, Option.getD_none]
        exact ih _ hndt hmt hQ hs
      | some ps =>
        rw [stashOne_some r n ps hfind, Option.getD_some]
        refine ih _ hndt hmt ?_ ?_
        · show findCl (eraseCl r.active n) m = some Q
          rw [findCl_eraseCl_ne _ _ _ hmn]
          exact hQ
        · show findStash (r.stashed ++
            [(n, ⟨ps, ps.map (fun p => (p, wtLookup r.worktree p)), ps.length⟩)]) m = none
          rw [findStash_append, hs, Option.none_or]
          unfold findStash
          rw [find?_key_cons, if_neg (fun hc => hmn hc.symm)]
          rfl

theorem storeInv_foldStash (names : List String) (r : Repo) (h : StoreInv r.active) :
    StoreInv (foldStash r names).active := by
  rw [foldStash_active]
  exact storeInv_filter _ _ h

/-! ## The invariant is preserved by every command except unstash -/

theorem storeInv_exec (root : List String) (r : Repo) (c : Cmd)
    (hc : c.isUnstash = false) (h : StoreInv r.active) :
    StoreInv (exec root r c).active := by
  cases c with
  | add cwd n raws =>
    show StoreInv (cmd_add root cwd r n raws).repo.active
    unfold cmd_add
    split
    · exact h
    · split
      · exact h
      · split
        · exact h
        · exact storeInv_reassign _ _ _ h
  | remove cwd n raws =>
    show StoreInv (cmd_remove root cwd r n raws).repo.active
    unfold cmd_remove
    cases findCl r.active n with
    | none => exact h
    | some ps =>
      dsimp only
      refine storeInv_shrink _ _ (fun e p hp => ?_) h
      by_cases he : (e.1 == n) = true
      · rw [if_pos he] at hp
        exact ((mem_removePaths _ _ _).mp hp).1
      · rw [if_neg he] at hp
        exact hp
  | delete ns =>
    exact storeInv_filter _ _ h
  | deleteAll => exact storeInv_nil
  | status => exact h
  | diff ns => exact h
  | stage n d =>
    show StoreInv (cmd_stage r n d).repo.active
    unfold cmd_stage
    cases findCl r.active n with
    | none => exact h
    | some ps =>
      dsimp only
      split
      · exact storeInv_filter _ _ h
      · exact h
  | unstage n d =>
    show StoreInv (cmd_unstage r n d).repo.active
    unfold cmd_unstage
    cases findCl r.active n with
    | none => exact h
    | some ps =>
      dsimp only
      split
      · exact storeInv_filter _ _ h
      · exact h
  | commit n m k =>
    show StoreInv (cmd_commit r n m k).repo.active
    unfold cmd_commit
    cases findCl r.active n with
    | none => exact h
    | some ps =>
      dsimp only
      split
      · exact h
      · split
        · exact h
        · exact storeInv_filter _ _ h
  | checkout ns d =>
    show StoreInv (cmd_checkout r ns d).repo.active
    unfold cmd_checkout
    dsimp only
    split
    · exact storeInv_filter _ _ h
    · exact h
  | stash n =>
    show StoreInv (cmd_stash r n).repo.active
    unfold cmd_stash
    cases hfind : findCl r.active n with
    | none =>
      rw [stashOne_none r n hfind]
      exact h
    | some ps =>
      rw [stashOne_some r n ps hfind]
      exact storeInv_filter _ _ h
  | stashAll =>
    exact storeInv_foldStash _ _ h
  | unstash n => cases hc
  | unstashAll => cases hc
  | branch n b =>
    show StoreInv (cmd_branch r n b).repo.active
    unfold cmd_branch
    cases findCl r.active n with
    | none => exact h
    | some ps =>
      dsimp only
      exact storeInv_foldStash _ _ h

/-- Every state reachable without unstash satisfies the structural store
invariant. -/
theorem storeInv_reachableNU (root : List String) (r : Repo) (h : ReachableNU root r) :
    StoreInv r.active := by
  induction h with
  | init wt index head br => exact storeInv_nil
  | step r c hc hr ih => exact storeInv_exec root r c hc ih

/-! ## Porcelain facts -/

theorem porcelain_untracked_iff (r : Repo) (p : Path) :
    porcelain r p = "??" ↔
      wtLookup r.head p = none ∧ (wtLookup r.worktree p).isSome ∧
        r.index.contains p = false := by
  unfold porcelain
  by_cases hh : (wtLookup r.head p).isNone
  · rw [if_pos hh]
    by_cases hw : (wtLookup r.worktree p).isNone
    · rw [if_pos hw]
      constructor
      · intro hcon
        exact absurd hcon (by decide)
      · rintro ⟨-, hsome, -⟩
        rw [Option.isNone_iff_eq_none.mp hw] at hsome
        cases hsome
    · rw [if_neg hw]
      by_cases hi : r.index.contains p = true
      · rw [if_pos hi]
        constructor
        · intro hcon
          exact absurd hcon (by decide)
        · rintro ⟨-, -, hfalse⟩
          rw [hi] at hfalse
          cases hfalse
      · rw [if_neg hi]
        constructor
        · intro _
          refine ⟨Option.isNone_iff_eq_none.mp hh, ?_, ?_⟩
          · cases hcase : wtLookup r.worktree p with
            | none => exact absurd (by rw [hcase]; rfl) hw
            | some w => rfl
          · exact Bool.eq_false_iff.mpr hi
        · intro _
          rfl
  · rw [if_neg hh]
    have hhead : wtLookup r.head p ≠ none := by
      intro hc
      exact hh (by rw [hc]; rfl)
    constructor
    · intro hcon
      split at hcon
      · exact absurd hcon (by decide)
      · split at hcon <;> split at hcon <;> exact absurd hcon (by decide)
    · rintro ⟨hcn, -, -⟩
      exact absurd hcn hhead

/-! ## Path normalisation lemmas -/

theorem normStep_plain (acc : List String) (c : String) (h : IsPlainComp c) :
    normStep (some acc) c = some (acc ++ [c]) := by
  obtain ⟨h1, h2, h3⟩ := h
  simp only [normStep]
  rw [if_neg (by rintro (hc | hc) <;> [exact h1 hc; exact h2 hc]), if_neg h3]

theorem foldl_normStep_plain (cs : List String) (acc : List String)
    (h : ∀ c ∈ cs, IsPlainComp c) :
    cs.foldl normStep (some acc) = some (acc ++ cs) := by
  induction cs generalizing acc with
  | nil => simp
  | cons c t ih =>
    rw [List.foldl_cons, normStep_plain _ _ (h c (List.mem_cons_self c t)),
      ih _ (fun x hx => h x (List.mem_cons_of_mem c hx)), List.append_assoc]
    rfl

theorem foldl_normStep_dots (k : Nat) : ∀ (acc ext : List String), ext.length = k →
    (List.replicate k "..").foldl normStep (some (acc ++ ext)) = some acc := by
  induction k with
  | zero =>
    intro acc ext hl
    rw [List.length_eq_zero] at hl
    subst hl
    simp
  | succ k ih =>
    intro acc ext hl
    have hne : ext ≠ [] := by
      intro hc
      subst hc
      simp at hl
    rw [List.replicate_succ, List.foldl_cons]
    have hstep : normStep (some (acc ++ ext)) ".." = some (acc ++ ext.dropLast) := by
      simp only [normStep, if_true]
      have hni : ¬((acc ++ ext).isEmpty = true) := by simp [List.isEmpty_iff, hne]
      rw [if_neg hni, List.dropLast_append_of_ne_nil acc hne]
      have hd : ¬(".." = "" ∨ ".." = ".") := by simp
      rw [if_neg hd]
    rw [hstep]
    exact ih acc ext.dropLast (by rw [List.length_dropLast, hl]; rfl)

theorem relDisplay_resolves (cwd : List String) : ∀ (rp pre : List String),
    (∀ c ∈ cwd, IsPlainComp c) → (∀ c ∈ rp, IsPlainComp c) →
    (relDisplayComps cwd rp).foldl normStep (some (pre ++ cwd)) = some (pre ++ rp) := by
  induction cwd with
  | nil =>
    intro rp pre _ hr
    simp only [relDisplayComps, List.append_nil]
    exact foldl_normStep_plain rp pre hr
  | cons c cs ih =>
    intro rp pre hc hr
    cases rp with
    | nil =>
      simp only [relDisplayComps, List.append_nil, List.map_const']
      exact foldl_normStep_dots (c :: cs).length pre (c :: cs) rfl
    | cons r rs =>
      simp only [relDisplayComps]
      by_cases hcr : c = r
      · rw [if_pos hcr]
        subst hcr
        have hsplit : pre ++ c :: cs = (pre ++ [c]) ++ cs := by simp
        rw [hsplit, ih rs (pre ++ [c])
          (fun x hx => hc x (List.mem_cons_of_mem c hx))
          (fun x hx => hr x (List.mem_cons_of_mem c hx))]
        simp
      · rw [if_neg hcr, List.foldl_append, List.map_const',
          foldl_normStep_dots (c :: cs).length pre (c :: cs) rfl]
        exact foldl_normStep_plain (r :: rs) pre hr

/-- Resolving the displayed path from `cwd` gives back the stored
repo-relative path. -/
theorem normalizeComponents_display (cwd rp : List String)
    (hc : ∀ c ∈ cwd, IsPlainComp c) (hr : ∀ c ∈ rp, IsPlainComp c) :
    normalizeComponents (cwd ++ relDisplayComps cwd rp) = some rp := by
  unfold normalizeComponents
  rw [List.foldl_append]
  have hcwd : cwd.foldl normStep (some []) = some cwd := by
    have := foldl_normStep_plain cwd [] hc
    simpa using this
  rw [hcwd]
  have := relDisplay_resolves cwd rp [] hc hr
  simpa using this

/-! ## Further worktree lemmas -/

theorem wtLookup_restoreSaved_fun (saved : WT) (g : Path → Option String)
    (hg : ∀ pc ∈ saved, pc.2 = g pc.1) : ∀ (wt : WT) (p : Path),
    p ∈ saved.map Prod.fst → wtLookup (restoreSaved wt saved) p = g p := by
  induction saved with
  | nil =>
    intro wt p h
    cases h
  | cons pc t ih =>
    intro wt p h
    rw [restoreSaved_cons]
    by_cases hpt : p ∈ t.map Prod.fst
    · exact ih (fun x hx => hg x (List.mem_cons_of_mem pc hx)) _ p hpt
    · have hp1 : p = pc.1 := by
        rw [List.map_cons] at h
        rcases List.mem_cons.mp h with h1 | h2
        · exact h1
        · exact absurd h2 hpt
      rw [wtLookup_restoreSaved_notMem _ _ _ hpt, hp1, wtLookup_wtSet_same]
      exact hg pc (List.mem_cons_self pc t)

theorem map_fst_pairing (P : List Path) (f : Path → Option String) :
    (P.map (fun p => (p, f p))).map Prod.fst = P := by
  rw [List.map_map]
  exact List.map_id' P

theorem contains_false_iff (l : List Path) (p : Path) :
    l.contains p = false ↔ p ∉ l := by
  rw [← contains_iff]
  cases l.contains p <;> simp

/-! ## Command equations -/

theorem cmd_stash_eq (r : Repo) (n : String) (P : List Path)
    (h : findCl r.active n = some P) :
    (cmd_stash r n).repo = { r with
      active := eraseCl r.active n,
      stashed := r.stashed ++
        [(n, ⟨P, P.map (fun p => (p, wtLookup r.worktree p)), P.length⟩)],
      worktree := syncPaths r.worktree r.head P } := by
  unfold cmd_stash
  rw [stashOne_some r n P h]

theorem cmd_unstash_eq (r : Repo) (n : String) (e : StashedEntry)
    (h : findStash r.stashed n = some e) :
    (cmd_unstash r n).repo = { r with
      worktree := restoreSaved r.worktree e.saved,
      stashed := r.stashed.filter (fun x => !(x.1 == n)),
      active := r.active ++ [(n, e.paths)] } := by
  unfold cmd_unstash
  rw [h]

/-! ## Concrete states used as witnesses -/

/-- A minimal repository state: one committed file `f.txt`, modified in
the working tree, no changelists yet. -/
def demoRepo : Repo :=
  ⟨[], [], [("f.txt", some "mod")], [], [("f.txt", some "orig")], [], "main"⟩

/-- The same state with `f.txt` assigned to changelist `a`. -/
def rtRepo : Repo :=
  ⟨[("a", ["f.txt"])], [], [("f.txt", some "mod")], [], [("f.txt", some "orig")], [],
    "main"⟩

/-- A command sequence that re-adds a stashed path to another changelist
and then unstashes the original changelist. -/
def demoCmds : List Cmd :=
  [.add [] "a" ["f.txt"], .stash "a", .add [] "b" ["f.txt"], .unstash "a"]

/-! ## The claims -/

/-- C2: for an active changelist `n` with paths `P` (no stashed entry of
the same name), running `stash n` then `unstash n` restores the content of
every working-tree path, puts `n` back in the active store with paths `P`,
and leaves no entry `n` in the stashed store. -/
theorem C2_stash_roundtrip (r : Repo) (n : String) (P : List Path)
    (hA : findCl r.active n = some P)
    (hS : findStash r.stashed n = none) :
    (∀ p : Path,
      wtLookup ((cmd_unstash (cmd_stash r n).repo n).repo).worktree p =
        wtLookup r.worktree p) ∧
    findCl ((cmd_unstash (cmd_stash r n).repo n).repo).active n = some P ∧
    findStash ((cmd_unstash (cmd_stash r n).repo n).repo).stashed n = none := by
  rw [cmd_stash_eq r n P hA]
  have hfind : findStash (r.stashed ++
      [(n, ⟨P, P.map (fun p => (p, wtLookup r.worktree p)), P.length⟩)]) n =
      some ⟨P, P.map (fun p => (p, wtLookup r.worktree p)), P.length⟩ := by
    rw [findStash_append, hS, Option.none_or]
    unfold findStash
    rw [find?_key_cons, if_pos rfl]
    rfl
  rw [cmd_unstash_eq _ n _ hfind]
  dsimp only
  refine ⟨?_, ?_, ?_⟩
  · intro p
    by_cases hp : p ∈ P
    · have hg : ∀ pc ∈ P.map (fun q => (q, wtLookup r.worktree q)),
          pc.2 = wtLookup r.worktree pc.1 := by
        intro pc hpc
        rcases List.mem_map.mp hpc with ⟨q, hq, rfl⟩
        rfl
      have hmem : p ∈ (P.map (fun q => (q, wtLookup r.worktree q))).map Prod.fst := by
        rw [map_fst_pairing]
        exact hp
      rw [wtLookup_restoreSaved_fun _ _ hg _ p hmem]
    · have hmem : p ∉ (P.map (fun q => (q, wtLookup r.worktree q))).map Prod.fst := by
        rw [map_fst_pairing]
        exact hp
      rw [wtLookup_restoreSaved_notMem _ _ _ hmem,
        wtLookup_syncPaths_notMem _ _ _ _ hp]
  · rw [findCl_append, findCl_eraseCl_self, Option.none_or]
    unfold findCl
    rw [find?_key_cons, if_pos rfl]
    rfl
  · rw [findStash_eq_none]
    intro e he
    have hpred := (List.mem_filter.mp he).2
    simpa using hpred

/-- Witness for C2 at a concrete one-file repository. -/
theorem C2_stash_roundtrip_witness :
    wtLookup ((cmd_unstash (cmd_stash rtRepo "a").repo "a").repo).worktree "f.txt" =
      wtLookup rtRepo.worktree "f.txt" ∧
    findCl ((cmd_unstash (cmd_stash rtRepo "a").repo "a").repo).active "a" =
      some ["f.txt"] ∧
    findStash ((cmd_unstash (cmd_stash rtRepo "a").repo "a").repo).stashed "a" =
      none := by
  have h := C2_stash_roundtrip rtRepo "a" ["f.txt"] (by decide) (by decide)
  exact ⟨h.1 "f.txt", h.2.1, h.2.2⟩

/-- Counterexample to C1 as stated: the state reached by the legal
sequence `add a f.txt; stash a; add b f.txt; unstash a` has `f.txt` in two
active changelists, because `unstash` moves the frozen path list back
without removing its paths from other changelists. -/
theorem C1_counterexample :
    Reachable ["repo"] (runCmds ["repo"] demoRepo demoCmds) ∧
      ¬ owners (runCmds ["repo"] demoRepo demoCmds).active "f.txt" ≤ 1 := by
  constructor
  · have h0 : Reachable ["repo"] demoRepo :=
      Reachable.init [("f.txt", some "mod")] [] [("f.txt", some "orig")] "main"
    have h1 := Reachable.step _ (Cmd.add [] "a" ["f.txt"]) h0
    have h2 := Reachable.step _ (Cmd.stash "a") h1
    have h3 := Reachable.step _ (Cmd.add [] "b" ["f.txt"]) h2
    have h4 := Reachable.step _ (Cmd.unstash "a") h3
    exact h4
  · decide

/-- C1 (amended): in every state reachable without running `unstash`, each
path belongs to at most one active changelist; and the `reassign` update
performed by a successful `add` inserts the paths into the target
changelist, removes them from every other changelist, and retains a
changelist emptied by the removal as an (empty) entry. -/
theorem C1_single_owner :
    (∀ (root : List String) (r : Repo), ReachableNU root r →
      ∀ p : Path, owners r.active p ≤ 1) ∧
    (∀ (s : Store) (n : String) (ps : List Path),
      (∀ p ∈ ps, p ∈ (findCl (reassign s n ps) n).getD []) ∧
      (∀ m l, m ≠ n → findCl s m = some l →
        findCl (reassign s n ps) m = some (removePaths l ps))) := by
  constructor
  · intro root r hr p
    exact owners_le_one _ _ (storeInv_reachableNU root r hr).2
  · intro s n ps
    constructor
    · intro p hp
      rw [findCl_reassign_self]
      exact (mem_insertPaths _ _ _).mpr (Or.inr hp)
    · intro m l hm hl
      rw [findCl_reassign_other s n m ps hm, hl]
      rfl

/-- Witness for C1 (amended): one `add` from the fresh demo state, an
owner count at a concrete path, and a reassignment that leaves the
emptied other changelist present with no paths. -/
theorem C1_single_owner_witness :
    owners (exec ["repo"] demoRepo (Cmd.add [] "a" ["f.txt"])).active "f.txt" ≤ 1 ∧
    findCl (reassign [("a", ["f.txt"])] "b" ["f.txt"]) "a" =
      some (removePaths ["f.txt"] ["f.txt"]) := by
  constructor
  · exact C1_single_owner.1 ["repo"] _
      (ReachableNU.step demoRepo (Cmd.add [] "a" ["f.txt"]) rfl
        (ReachableNU.init [("f.txt", some "mod")] [] [("f.txt", some "orig")] "main"))
      "f.txt"
  · exact (C1_single_owner.2 [("a", ["f.txt"])] "b" ["f.txt"]).2 "a" ["f.txt"]
      (by decide) (by decide)

/-- C4: `stage` keeps the changelist by default and drops it with
`--delete`; `commit` (when a commit is actually made) drops it by default
and keeps it with `--keep`. -/
theorem C4_stage_commit_defaults (r : Repo) (n msg : String) (P : List Path)
    (h : findCl r.active n = some P) :
    hasCl (cmd_stage r n false).repo.active n = true ∧
    hasCl (cmd_stage r n true).repo.active n = false ∧
    (P.filter (fun p => !(porcelain r p == "??")) ≠ [] →
      hasCl (cmd_commit r n msg false).repo.active n = false) ∧
    hasCl (cmd_commit r n msg true).repo.active n = true := by
  have hhas : hasCl r.active n = true := hasCl_of_findCl r.active n P h
  refine ⟨?_, ?_, ?_, ?_⟩
  · show hasCl (cmd_stage r n false).repo.active n = true
    unfold cmd_stage
    rw [h]
    exact hhas
  · show hasCl (cmd_stage r n true).repo.active n = false
    unfold cmd_stage
    rw [h]
    exact hasCl_eraseCl_self r.active n
  · intro hne
    have hf : (P.filter (fun p => !(porcelain r p == "??"))).isEmpty = false := by
      cases hie : (P.filter (fun p => !(porcelain r p == "??"))).isEmpty with
      | false => rfl
      | true => exact absurd (List.isEmpty_iff.mp hie) hne
    show hasCl (cmd_commit r n msg false).repo.active n = false
    unfold cmd_commit
    rw [h]
    dsimp only
    rw [hf]
    exact hasCl_eraseCl_self r.active n
  · show hasCl (cmd_commit r n msg true).repo.active n = true
    unfold cmd_commit
    rw [h]
    dsimp only
    split
    · exact hhas
    · exact hhas

/-- Witness for C4 at the concrete one-file repository. -/
theorem C4_stage_commit_defaults_witness :
    hasCl (cmd_stage rtRepo "a" false).repo.active "a" = true ∧
    hasCl (cmd_stage rtRepo "a" true).repo.active "a" = false ∧
    hasCl (cmd_commit rtRepo "a" "msg" false).repo.active "a" = false ∧
    hasCl (cmd_commit rtRepo "a" "msg" true).repo.active "a" = true := by
  have h := C4_stage_commit_defaults rtRepo "a" "msg" ["f.txt"] (by decide)
  exact ⟨h.1, h.2.1, h.2.2.1 (by decide), h.2.2.2⟩

/-- Bool-to-Prop characterisation of the forbidden-character test. -/
theorem forbiddenChar_true_iff (c : Char) :
    forbiddenChar c = true ↔
      (c = ' ' ∨ c = '/' ∨ c = '\\' ∨ c = '@' ∨ c = ':' ∨ c = '~' ∨ c = '^' ∨
        c = '*' ∨ c = '?' ∨ c = '[' ∨ c.toNat < 32 ∨ c = Char.ofNat 127) := by
  unfold forbiddenChar
  simp only [Bool.or_eq_true, beq_iff_eq, decide_eq_true_eq]
  tauto

set_option maxRecDepth 16000 in
/-- C6: a name is accepted iff it satisfies the documented syntactic
rules; an invalid name makes `add` exit 1 with the message
`Invalid changelist name: <name>` and leave the state unchanged; and the
documented examples are accepted or rejected accordingly. -/
theorem C6_name_validation :
    (∀ n : String, isValidName n = true ↔
      (1 ≤ n.length ∧ n.length ≤ 100 ∧ n ≠ "HEAD" ∧
        ¬(∀ c ∈ n.data, c = '.') ∧
        ∀ c ∈ n.data, ¬(c = ' ' ∨ c = '/' ∨ c = '\\' ∨ c = '@' ∨ c = ':' ∨
          c = '~' ∨ c = '^' ∨ c = '*' ∨ c = '?' ∨ c = '[' ∨
          c.toNat < 32 ∨ c = Char.ofNat 127))) ∧
    (∀ (root cwd : List String) (r : Repo) (n : String) (raws : List String),
      isValidName n = false → raws ≠ [] →
      (cmd_add root cwd r n raws).exitCode = 1 ∧
      (cmd_add root cwd r n raws).messages = ["Invalid changelist name: " ++ n] ∧
      (cmd_add root cwd r n raws).repo = r) ∧
    ((isValidName "main" && isValidName "master" && isValidName "status" &&
      isValidName "add" && isValidName ".hidden" && isValidName "my-list" &&
      isValidName "my_list" && isValidName "my.list") = true ∧
      isValidName "HEAD" = false ∧ isValidName "." = false ∧
      isValidName ".." = false ∧ isValidName "..." = false ∧
      isValidName "my list" = false ∧ isValidName "my/list" = false ∧
      isValidName "my@list" = false ∧ isValidName "my:list" = false ∧
      isValidName "my~list" = false ∧ isValidName "my^list" = false ∧
      isValidName "my*list" = false ∧ isValidName "" = false ∧
      isValidName (String.mk (List.replicate 200 'a')) = false) := by
  refine ⟨?_, ?_, by decide⟩
  · intro n
    unfold isValidName
    rw [Bool.and_eq_true, Bool.and_eq_true, Bool.and_eq_true, Bool.and_eq_true,
      decide_eq_true_eq, decide_eq_true_eq, Bool.not_eq_true', Bool.not_eq_true',
      beq_eq_false_iff_ne]
    constructor
    · rintro ⟨⟨⟨⟨hl1, hl2⟩, hh⟩, hdots⟩, hforb⟩
      refine ⟨hl1, hl2, hh, ?_, ?_⟩
      · intro hall
        have hall2 : (n.data.all (fun c => c == '.')) = true :=
          List.all_eq_true.mpr (fun c hc => by simp [hall c hc])
        rw [hall2] at hdots
        cases hdots
      · intro c hc hcon
        have hfc := List.all_eq_true.mp hforb c hc
        rw [Bool.not_eq_true'] at hfc
        rw [← forbiddenChar_true_iff] at hcon
        rw [hcon] at hfc
        cases hfc
    · rintro ⟨hl1, hl2, hh, hdots, hforb⟩
      refine ⟨⟨⟨⟨hl1, hl2⟩, hh⟩, ?_⟩, ?_⟩
      · cases hall : (n.data.all (fun c => c == '.')) with
        | false => rfl
        | true =>
          exact absurd (fun c hc => by simpa using List.all_eq_true.mp hall c hc) hdots
      · refine List.all_eq_true.mpr (fun c hc => ?_)
        rw [Bool.not_eq_true']
        cases hfc : forbiddenChar c with
        | false => rfl
        | true => exact absurd (forbiddenChar_true_iff c |>.mp hfc) (hforb c hc)
  · intro root cwd r n raws hn hraws
    have hre : raws.isEmpty = false := by
      cases hie : raws.isEmpty with
      | false => rfl
      | true => exact absurd (List.isEmpty_iff.mp hie) hraws
    unfold cmd_add
    rw [hre, hn]
    exact ⟨rfl, rfl, rfl⟩

/-- Witness for C6's conditional part: an invalid name at a concrete
state. -/
theorem C6_name_validation_witness :
    (isValidName "my list" = true ↔
      (1 ≤ ("my list").length ∧ ("my list").length ≤ 100 ∧ "my list" ≠ "HEAD" ∧
        ¬(∀ c ∈ ("my list").data, c = '.') ∧
        ∀ c ∈ ("my list").data, ¬(c = ' ' ∨ c = '/' ∨ c = '\\' ∨ c = '@' ∨ c = ':' ∨
          c = '~' ∨ c = '^' ∨ c = '*' ∨ c = '?' ∨ c = '[' ∨
          c.toNat < 32 ∨ c = Char.ofNat 127))) ∧
    (cmd_add ["repo"] [] demoRepo "my list" ["f.txt"]).exitCode = 1 ∧
    (cmd_add ["repo"] [] demoRepo "my list" ["f.txt"]).messages =
      ["Invalid changelist name: " ++ "my list"] ∧
    (cmd_add ["repo"] [] demoRepo "my list" ["f.txt"]).repo = demoRepo := by
  refine ⟨C6_name_validation.1 "my list", ?_⟩
  exact C6_name_validation.2.1 ["repo"] [] demoRepo "my list" ["f.txt"]
    (by decide) (by decide)

/-- C7: `commit` records a commit containing exactly the tracked paths of
the changelist; untracked paths are not part of it and keep porcelain
`??`; with no tracked path the command leaves the state unchanged, exits 0
and prints the documented message. -/
theorem C7_commit_untracked (r : Repo) (n msg : String) (P : List Path)
    (h : findCl r.active n = some P) :
    (P.filter (fun p => !(porcelain r p == "??")) ≠ [] →
      (cmd_commit r n msg false).repo.commits =
        r.commits ++ [(msg, P.filter (fun p => !(porcelain r p == "??")))] ∧
      (∀ p ∈ P, porcelain r p = "??" →
        p ∉ P.filter (fun q => !(porcelain r q == "??")) ∧
        porcelain (cmd_commit r n msg false).repo p = "??")) ∧
    (P.filter (fun p => !(porcelain r p == "??")) = [] →
      (cmd_commit r n msg false).repo = r ∧
      (cmd_commit r n msg false).exitCode = 0 ∧
      (cmd_commit r n msg false).messages =
        ["No tracked files to commit in '" ++ n ++ "'"]) := by
  constructor
  · intro hne
    have hf : (P.filter (fun p => !(porcelain r p == "??"))).isEmpty = false := by
      cases hie : (P.filter (fun p => !(porcelain r p == "??"))).isEmpty with
      | false => rfl
      | true => exact absurd (List.isEmpty_iff.mp hie) hne
    have heq : (cmd_commit r n msg false).repo = { r with
        head := syncPaths r.head r.worktree (P.filter (fun p => !(porcelain r p == "??"))),
        index := removePaths r.index (P.filter (fun p => !(porcelain r p == "??"))),
        commits := r.commits ++ [(msg, P.filter (fun p => !(porcelain r p == "??")))],
        active := eraseCl r.active n } := by
      unfold cmd_commit
      rw [h]
      dsimp only
      rw [hf]
      rfl
    rw [heq]
    refine ⟨rfl, ?_⟩
    intro p hp hporc
    obtain ⟨hh, hw, hi⟩ := (porcelain_untracked_iff r p).mp hporc
    have hnotin : p ∉ P.filter (fun q => !(porcelain r q == "??")) := by
      intro hc
      have h2 := (List.mem_filter.mp hc).2
      rw [hporc] at h2
      simp at h2
    refine ⟨hnotin, ?_⟩
    rw [porcelain_untracked_iff]
    refine ⟨?_, hw, ?_⟩
    · show wtLookup (syncPaths r.head r.worktree
        (P.filter (fun p => !(porcelain r p == "??")))) p = none
      rw [wtLookup_syncPaths_notMem _ _ _ _ hnotin]
      exact hh
    · show (removePaths r.index
        (P.filter (fun p => !(porcelain r p == "??")))).contains p = false
      rw [contains_false_iff]
      intro hc
      exact (contains_false_iff _ _).mp hi ((mem_removePaths _ _ _).mp hc).1
  · intro hemp
    have hf : (P.filter (fun p => !(porcelain r p == "??"))).isEmpty = true := by
      rw [hemp]
      rfl
    have heq : cmd_commit r n msg false =
        ⟨r, 0, ["No tracked files to commit in '" ++ n ++ "'"]⟩ := by
      unfold cmd_commit
      rw [h]
      dsimp only
      rw [hf]
      rfl
    rw [heq]
    exact ⟨rfl, rfl, rfl⟩

/-- A state with a mixed changelist: `t.txt` is tracked and modified,
`u.txt` is untracked. -/
def mixRepo : Repo :=
  ⟨[("m", ["t.txt", "u.txt"])], [], [("t.txt", some "mod"), ("u.txt", some "new")],
    [], [("t.txt", some "orig")], [], "main"⟩

/-- A state whose only changelist holds a single untracked file. -/
def untrRepo : Repo :=
  ⟨[("u", ["u.txt"])], [], [("u.txt", some "new")], [], [], [], "main"⟩

/-- Witness for C7 at concrete mixed and untracked-only states. -/
theorem C7_commit_untracked_witness :
    (cmd_commit mixRepo "m" "x" false).repo.commits =
      mixRepo.commits ++ [("x", (["t.txt", "u.txt"] : List Path).filter
        (fun p => !(porcelain mixRepo p == "??")))] ∧
    porcelain (cmd_commit mixRepo "m" "x" false).repo "u.txt" = "??" ∧
    (cmd_commit untrRepo "u" "x" false).repo = untrRepo ∧
    (cmd_commit untrRepo "u" "x" false).exitCode = 0 ∧
    (cmd_commit untrRepo "u" "x" false).messages =
      ["No tracked files to commit in '" ++ "u" ++ "'"] := by
  have h1 := (C7_commit_untracked mixRepo "m" "x" ["t.txt", "u.txt"] (by decide)).1
    (by decide)
  have h2 := (C7_commit_untracked untrRepo "u" "x" ["u.txt"] (by decide)).2
    (by decide)
  exact ⟨h1.1, (h1.2 "u.txt" (by decide) (by decide)).2, h2.1, h2.2.1, h2.2.2⟩

/-- C8: a path the normaliser rejects yields the documented message and is
never recorded (everything in the target changelist is either an old path
or the normalisation of some supplied path); when every supplied path is
rejected the command exits 1 with the state unchanged. -/
theorem C8_invalid_paths (root cwd : List String) (r : Repo) (n : String)
    (raws : List String) (hn : isValidName n = true) (hne : raws ≠ []) :
    (∀ raw ∈ raws, normalizePath root cwd raw = none →
      ("invalid or unsafe path: " ++ raw) ∈ (cmd_add root cwd r n raws).messages) ∧
    (∀ p, p ∈ (findCl (cmd_add root cwd r n raws).repo.active n).getD [] →
      p ∈ (findCl r.active n).getD [] ∨
        ∃ raw ∈ raws, normalizePath root cwd raw = some p) ∧
    ((∀ raw ∈ raws, normalizePath root cwd raw = none) →
      (cmd_add root cwd r n raws).exitCode = 1 ∧
      (cmd_add root cwd r n raws).repo = r) := by
  have hre : raws.isEmpty = false := by
    cases hie : raws.isEmpty with
    | false => rfl
    | true => exact absurd (List.isEmpty_iff.mp hie) hne
  have hbad : ∀ raw ∈ raws, normalizePath root cwd raw = none →
      ("invalid or unsafe path: " ++ raw) ∈ addBadMsgs root cwd raws := by
    intro raw hraw hnone
    unfold addBadMsgs addNormed
    rw [List.mem_filterMap]
    refine ⟨(raw, none), ?_, rfl⟩
    rw [List.mem_map]
    exact ⟨raw, hraw, by rw [hnone]⟩
  have hv : ¬((!isValidName n) = true) := by
    rw [hn]
    decide
  have hr : ¬(raws.isEmpty = true) := by
    rw [hre]
    decide
  unfold cmd_add
  rw [if_neg hr, if_neg hv]
  by_cases hg : (addGood root cwd raws).isEmpty = true
  · rw [if_pos hg]
    refine ⟨fun raw hraw hnone => hbad raw hraw hnone, ?_, ?_⟩
    · intro p hp
      exact Or.inl hp
    · intro _
      exact ⟨rfl, rfl⟩
  · rw [if_neg hg]
    refine ⟨?_, ?_, ?_⟩
    · intro raw hraw hnone
      rw [List.mem_append, List.mem_append]
      exact Or.inl (Or.inl (hbad raw hraw hnone))
    · intro p hp
      rw [findCl_reassign_self] at hp
      rw [Option.getD_some] at hp
      rcases (mem_insertPaths _ _ _).mp hp with hold | hnew
      · exact Or.inl hold
      · rcases (mem_insertPaths _ _ _).mp hnew with hnil | hgood
        · cases hnil
        · unfold addGood addNormed at hgood
          rw [List.mem_filterMap] at hgood
          rcases hgood with ⟨e, he, he2⟩
          rw [List.mem_map] at he
          rcases he with ⟨raw, hraw, rfl⟩
          exact Or.inr ⟨raw, hraw, he2⟩
    · intro hall
      exfalso
      apply hg
      have : addGood root cwd raws = [] := by
        unfold addGood addNormed
        rw [List.filterMap_eq_nil_iff]
        intro e he
        rw [List.mem_map] at he
        rcases he with ⟨raw, hraw, rfl⟩
        exact hall raw hraw
      rw [this]
      rfl

/-- Witness for C8: traversal and absolute paths outside the repository
root `/home/repo`. -/
theorem C8_invalid_paths_witness :
    ("invalid or unsafe path: " ++ "../../etc/passwd") ∈
      (cmd_add ["home", "repo"] [] demoRepo "safe"
        ["../../etc/passwd", "/etc/passwd"]).messages ∧
    (cmd_add ["home", "repo"] [] demoRepo "safe"
      ["../../etc/passwd", "/etc/passwd"]).exitCode = 1 ∧
    (cmd_add ["home", "repo"] [] demoRepo "safe"
      ["../../etc/passwd", "/etc/passwd"]).repo = demoRepo := by
  have h := C8_invalid_paths ["home", "repo"] [] demoRepo "safe"
    ["../../etc/passwd", "/etc/passwd"] (by decide) (by decide)
  have hall : ∀ raw ∈ (["../../etc/passwd", "/etc/passwd"] : List String),
      normalizePath ["home", "repo"] [] raw = none := by decide
  exact ⟨h.1 "../../etc/passwd" (by decide) (by decide),
    (h.2.2 hall).1, (h.2.2 hall).2⟩

/-- C9: a normalisable but non-existent path is accepted: `add` exits 0,
warns that the file does not exist, and records the normalised path in the
changelist. -/
theorem C9_nonexistent_path (root cwd : List String) (r : Repo) (n : String)
    (raw rp : String) (hn : isValidName n = true)
    (hnorm : normalizePath root cwd raw = some rp)
    (hnex : wtLookup r.worktree rp = none) :
    (cmd_add root cwd r n [raw]).exitCode = 0 ∧
    ("Warning: '" ++ rp ++ "' does not exist") ∈ (cmd_add root cwd r n [raw]).messages ∧
    rp ∈ (findCl (cmd_add root cwd r n [raw]).repo.active n).getD [] := by
  have hgood : addGood root cwd [raw] = [rp] := by
    unfold addGood addNormed
    simp [hnorm]
  have hins : insertPaths [] (addGood root cwd [raw]) = [rp] := by
    rw [hgood]
    rfl
  have hv : ¬((!isValidName n) = true) := by
    rw [hn]
    decide
  have hr : ¬((([raw] : List String).isEmpty) = true) := by simp
  have hg : ¬((addGood root cwd [raw]).isEmpty = true) := by
    rw [hgood]
    simp
  unfold cmd_add
  rw [if_neg hr, if_neg hv, if_neg hg]
  refine ⟨rfl, ?_, ?_⟩
  · have hwarn : addWarnMsgs r root cwd [raw] =
        ["Warning: '" ++ rp ++ "' does not exist"] := by
      unfold addWarnMsgs
      rw [hins]
      simp [hnex]
    rw [List.mem_append, List.mem_append, hwarn]
    exact Or.inl (Or.inr (List.mem_singleton.mpr rfl))
  · rw [findCl_reassign_self, Option.getD_some]
    refine (mem_insertPaths _ _ _).mpr (Or.inr ?_)
    rw [hins]
    exact List.mem_singleton.mpr rfl

/-- Witness for C9: `nonexistent.txt` added from the repo root. -/
theorem C9_nonexistent_path_witness :
    (cmd_add ["repo"] [] demoRepo "maybe" ["nonexistent.txt"]).exitCode = 0 ∧
    ("Warning: '" ++ "nonexistent.txt" ++ "' does not exist") ∈
      (cmd_add ["repo"] [] demoRepo "maybe" ["nonexistent.txt"]).messages ∧
    "nonexistent.txt" ∈
      (findCl (cmd_add ["repo"] [] demoRepo "maybe"
        ["nonexistent.txt"]).repo.active "maybe").getD [] :=
  C9_nonexistent_path ["repo"] [] demoRepo "maybe" "nonexistent.txt"
    "nonexistent.txt" (by decide) (by decide) (by decide)

/-- C10: `unstash b` in a state where `a` and `b` are both stashed (with
`a`'s files reverted to `HEAD`, as after `stash --all`) restores `b`'s
saved contents and reactivates `b` with its frozen paths, while `a` keeps
its stashed entry and its paths keep their `HEAD` contents. -/
theorem C10_unstash_frame (r : Repo) (a b : String) (ea eb : StashedEntry)
    (hab : a ≠ b)
    (hea : findStash r.stashed a = some ea)
    (heb : findStash r.stashed b = some eb)
    (hbactive : hasCl r.active b = false)
    (hnod : (eb.saved.map Prod.fst).Nodup)
    (hdisj : ∀ p ∈ ea.paths, p ∉ eb.saved.map Prod.fst)
    (hrev : ∀ p ∈ ea.paths, wtLookup r.worktree p = wtLookup r.head p) :
    findStash (cmd_unstash r b).repo.stashed a = some ea ∧
    findStash (cmd_unstash r b).repo.stashed b = none ∧
    findCl (cmd_unstash r b).repo.active b = some eb.paths ∧
    (∀ pc ∈ eb.saved, wtLookup (cmd_unstash r b).repo.worktree pc.1 = pc.2) ∧
    (∀ p ∈ ea.paths, wtLookup (cmd_unstash r b).repo.worktree p = wtLookup r.head p) := by
  rw [cmd_unstash_eq r b eb heb]
  dsimp only
  refine ⟨?_, ?_, ?_, ?_, ?_⟩
  · unfold findStash
    rw [find?_key_filter r.stashed b a hab]
    unfold findStash at hea
    exact hea
  · rw [findStash_eq_none]
    intro e he
    have hpred := (List.mem_filter.mp he).2
    simpa using hpred
  · rw [findCl_append]
    have hnone : findCl r.active b = none := by
      rw [findCl_eq_none]
      exact hasCl_false_forall r.active b hbactive
    rw [hnone, Option.none_or]
    unfold findCl
    rw [find?_key_cons, if_pos rfl]
    rfl
  · intro pc hpc
    exact wtLookup_restoreSaved_nodup eb.saved r.worktree pc.1 pc.2 hnod hpc
  · intro p hp
    rw [wtLookup_restoreSaved_notMem _ _ _ (hdisj p hp)]
    exact hrev p hp

/-- A state as left by `stash --all`: two stashed changelists, both files
reverted to their committed contents. -/
def frameRepo : Repo :=
  ⟨[], [("a", ⟨["fa"], [("fa", some "ma")], 1⟩), ("b", ⟨["fb"], [("fb", some "mb")], 1⟩)],
    [("fa", some "oa"), ("fb", some "ob")], [],
    [("fa", some "oa"), ("fb", some "ob")], [], "main"⟩

/-- Witness for C10 at the concrete two-changelist stashed state. -/
theorem C10_unstash_frame_witness :
    findStash (cmd_unstash frameRepo "b").repo.stashed "a" =
      some ⟨["fa"], [("fa", some "ma")], 1⟩ ∧
    findStash (cmd_unstash frameRepo "b").repo.stashed "b" = none ∧
    findCl (cmd_unstash frameRepo "b").repo.active "b" = some ["fb"] ∧
    wtLookup (cmd_unstash frameRepo "b").repo.worktree "fb" = some "mb" ∧
    wtLookup (cmd_unstash frameRepo "b").repo.worktree "fa" =
      wtLookup frameRepo.head "fa" := by
  have h := C10_unstash_frame frameRepo "a" "b"
    ⟨["fa"], [("fa", some "ma")], 1⟩ ⟨["fb"], [("fb", some "mb")], 1⟩
    (by decide) (by decide) (by decide) (by decide) (by decide) (by decide) (by decide)
  exact ⟨h.1, h.2.1, h.2.2.1, h.2.2.2.1 ("fb", some "mb") (by decide),
    h.2.2.2.2 "fa" (by decide)⟩

/-- C5: paths are stored repo-root-relative (adding `app.py` from `src/`
stores `src/app.py`, adding `../docs/guide.md` from `src/` stores
`docs/guide.md`), display renders a stored path relative to the current
directory with `..` components (`src/app.py` seen from `src/lib/` is
`../app.py`), and resolving a displayed path from its directory yields the
stored path back. -/
theorem C5_path_normalisation :
    (∀ root : List String, normalizePath root ["src"] "app.py" = some "src/app.py") ∧
    (∀ root : List String,
      normalizePath root ["src"] "../docs/guide.md" = some "docs/guide.md") ∧
    displayPath ["src", "lib"] "src/app.py" = "../app.py" ∧
    (∀ r : Repo, r.active = [] →
      (cmd_add ["home", "repo"] ["src"] r "feature" ["app.py"]).repo.active =
        [("feature", ["src/app.py"])]) ∧
    (∀ cwd rp : List String,
      (∀ c ∈ cwd, IsPlainComp c) → (∀ c ∈ rp, IsPlainComp c) →
      normalizeComponents (cwd ++ relDisplayComps cwd rp) = some rp) := by
  refine ⟨fun root => rfl, fun root => rfl, rfl, ?_, normalizeComponents_display⟩
  intro r hact
  have hv : ¬((!isValidName "feature") = true) := by decide
  have hr : ¬(((["app.py"] : List String).isEmpty) = true) := by decide
  have hg : ¬((addGood ["home", "repo"] ["src"] ["app.py"]).isEmpty = true) := by decide
  unfold cmd_add
  rw [if_neg hr, if_neg hv, if_neg hg]
  show reassign r.active "feature"
    (insertPaths [] (addGood ["home", "repo"] ["src"] ["app.py"])) =
    [("feature", ["src/app.py"])]
  rw [hact]
  decide

/-- Witness for C5: the display round-trip at `src/lib` and the concrete
`add` from `src/`. -/
theorem C5_path_normalisation_witness :
    normalizeComponents (["src", "lib"] ++
      relDisplayComps ["src", "lib"] ["src", "app.py"]) = some ["src", "app.py"] ∧
    (cmd_add ["home", "repo"] ["src"] demoRepo "feature" ["app.py"]).repo.active =
      [("feature", ["src/app.py"])] := by
  exact ⟨C5_path_normalisation.2.2.2.2 ["src", "lib"] ["src", "app.py"]
      (by decide) (by decide),
    C5_path_normalisation.2.2.2.1 demoRepo rfl⟩

/-! ## Lemmas for the branch command -/

theorem findCl_some_mem (s : Store) (n : String) (P : List Path)
    (h : findCl s n = some P) : ∃ e ∈ s, e.1 = n ∧ e.2 = P := by
  unfold findCl at h
  rw [Option.map_eq_some'] at h
  rcases h with ⟨e, he, h2⟩
  refine ⟨e, List.mem_of_find?_eq_some he, ?_, h2⟩
  have h0 := List.find?_some he
  simpa using h0

theorem mem_pathsOfNames (s : Store) (names : List String) (p : Path) :
    p ∈ pathsOfNames s names ↔ ∃ m ∈ names, p ∈ (findCl s m).getD [] := by
  unfold pathsOfNames
  rw [List.mem_flatten]
  constructor
  · rintro ⟨l, hl, hpl⟩
    rcases List.mem_map.mp hl with ⟨m, hm, rfl⟩
    exact ⟨m, hm, hpl⟩
  · rintro ⟨m, hm, hp⟩
    exact ⟨(findCl s m).getD [], List.mem_map.mpr ⟨m, hm, rfl⟩, hp⟩

theorem filter_key_eq_single (s : Store) (n : String) (P : List Path)
    (hnd : (s.map Prod.fst).Nodup) (h : findCl s n = some P) :
    s.filter (fun e => e.1 == n) = [(n, P)] := by
  induction s with
  | nil => simp [findCl] at h
  | cons e t ih =>
    rw [List.map_cons, List.nodup_cons] at hnd
    rw [List.filter_cons]
    by_cases hen : e.1 = n
    · rw [if_pos (by simpa using hen)]
      have hP : e.2 = P := by
        unfold findCl at h
        rw [find?_key_cons, if_pos hen] at h
        simpa using h
      have hnone : t.filter (fun x => x.1 == n) = [] := by
        rw [List.filter_eq_nil_iff]
        intro x hx hxn
        refine hnd.1 (List.mem_map.mpr ⟨x, hx, ?_⟩)
        have hx1 : x.1 = n := by simpa using hxn
        rw [hx1, hen]
      rw [hnone]
      have he : e = (n, P) := by
        rw [Prod.ext_iff]
        exact ⟨hen, hP⟩
      rw [he]
    · rw [if_neg (by simpa using hen)]
      apply ih hnd.2
      unfold findCl at h ⊢
      rw [find?_key_cons, if_neg hen] at h
      exact h

theorem storeInv_disjoint (s : Store) (hInv : StoreInv s) (n m : String)
    (P Q : List Path) (hn : findCl s n = some P) (hm : findCl s m = some Q)
    (hnm : n ≠ m) : ∀ p ∈ P, p ∉ Q := by
  obtain ⟨h1, h2⟩ := hInv
  rcases findCl_some_mem s n P hn with ⟨en, hen, hen1, hen2⟩
  rcases findCl_some_mem s m Q hm with ⟨em, hem, hem1, hem2⟩
  have hne : en ≠ em := fun hc => hnm (by rw [← hen1, hc]; exact hem1)
  have hsym : Symmetric (fun a b : String × List Path => ∀ p ∈ a.2, p ∉ b.2) := by
    intro a b hab p hpb hpa
    exact hab p hpa hpb
  have hres := h2.forall hsym hen hem hne
  rw [hen2, hem2] at hres
  exact hres

/-- C3: a successful `branch name` switches to the target branch
(defaulting to the changelist name), leaves exactly the target changelist
active with its paths and their working-tree modifications intact, and
moves every other formerly-active changelist to the stashed store with its
paths reverted to their `HEAD` contents. -/
theorem C3_branch (r : Repo) (name : String) (bn : Option String) (P : List Path)
    (hA : findCl r.active name = some P)
    (hInv : StoreInv r.active)
    (hDisjStash : ∀ m l, findCl r.active m = some l → findStash r.stashed m = none) :
    (cmd_branch r name bn).repo.branch = bn.getD name ∧
    (cmd_branch r name bn).repo.active = [(name, P)] ∧
    (∀ p ∈ P, wtLookup (cmd_branch r name bn).repo.worktree p =
      wtLookup r.worktree p) ∧
    (∀ m l, m ≠ name → findCl r.active m = some l →
      (∃ e, findStash (cmd_branch r name bn).repo.stashed m = some e ∧ e.paths = l) ∧
      (∀ p ∈ l, wtLookup (cmd_branch r name bn).repo.worktree p =
        wtLookup r.head p)) := by
  have hbr : (cmd_branch r name bn).repo =
      { foldStash r ((r.active.filter (fun e => !(e.1 == name))).map Prod.fst) with
        branch := bn.getD name } := by
    unfold cmd_branch
    rw [hA]
  rw [hbr]
  set others := (r.active.filter (fun e => !(e.1 == name))).map Prod.fst with hoth
  have hothnd : others.Nodup :=
    ((List.filter_sublist r.active).map Prod.fst).nodup hInv.1
  have hothers_some : ∀ m ∈ others, m ≠ name ∧ ∃ l, findCl r.active m = some l := by
    intro m hm
    rw [hoth] at hm
    rcases List.mem_map.mp hm with ⟨e, he, rfl⟩
    have hef := List.mem_filter.mp he
    constructor
    · simpa using hef.2
    · have hhas : hasCl r.active e.1 = true := (hasCl_iff _ _).mpr ⟨e, hef.1, rfl⟩
      have hiso := findCl_isSome_of_hasCl _ _ hhas
      rcases Option.isSome_iff_exists.mp hiso with ⟨l, hl⟩
      exact ⟨l, hl⟩
  have hmem_in : ∀ m l, m ≠ name → findCl r.active m = some l → m ∈ others := by
    intro m l hm hl
    rcases findCl_some_mem _ _ _ hl with ⟨e, he, he1, he2⟩
    rw [hoth]
    refine List.mem_map.mpr ⟨e, List.mem_filter.mpr ⟨he, ?_⟩, he1⟩
    simp only [Bool.not_eq_true', beq_eq_false_iff_ne]
    rw [he1]
    exact hm
  refine ⟨rfl, ?_, ?_, ?_⟩
  · show (foldStash r others).active = [(name, P)]
    rw [foldStash_active]
    have hcongr : r.active.filter (fun e => !(others.contains e.1)) =
        r.active.filter (fun e => e.1 == name) := by
      apply List.filter_congr
      intro e he
      by_cases hen : e.1 = name
      · have hnin : e.1 ∉ others := fun hc => (hothers_some e.1 hc).1 hen
        have hc1 : others.contains e.1 = false := (contains_false_iff _ _).mpr hnin
        rw [hc1, Bool.not_false, hen, beq_self_eq_true]
      · have hinm : e.1 ∈ others := by
          rw [hoth]
          refine List.mem_map.mpr ⟨e, List.mem_filter.mpr ⟨he, ?_⟩, rfl⟩
          simp only [Bool.not_eq_true', beq_eq_false_iff_ne]
          exact hen
        have hc1 : others.contains e.1 = true := (contains_iff _ _).mpr hinm
        have hc2 : (e.1 == name) = false := by
          simp only [beq_eq_false_iff_ne]
          exact hen
        rw [hc1, Bool.not_true, hc2]
    rw [hcongr]
    exact filter_key_eq_single r.active name P hInv.1 hA
  · intro p hp
    show wtLookup (foldStash r others).worktree p = wtLookup r.worktree p
    have hnotin : p ∉ pathsOfNames r.active others := by
      intro hcon
      rcases (mem_pathsOfNames _ _ _).mp hcon with ⟨m, hm, hpm⟩
      obtain ⟨hmne, l, hl⟩ := hothers_some m hm
      rw [hl] at hpm
      exact storeInv_disjoint r.active hInv name m P l hA hl
        (fun hc => hmne hc.symm) p hp hpm
    rw [foldStash_wt others r hothnd p, if_neg hnotin]
  · intro m l hm hl
    constructor
    · show ∃ e, findStash (foldStash r others).stashed m = some e ∧ e.paths = l
      exact findStash_foldStash others r m l hothnd (hmem_in m l hm hl) hl
        (hDisjStash m l hl)
    · intro p hp
      show wtLookup (foldStash r others).worktree p = wtLookup r.head p
      have hin : p ∈ pathsOfNames r.active others := by
        rw [mem_pathsOfNames]
        refine ⟨m, hmem_in m l hm hl, ?_⟩
        rw [hl]
        exact hp
      rw [foldStash_wt others r hothnd p, if_pos hin]

/-- A state with two active changelists on modified files, ready for
`branch fa`. -/
def brRepo : Repo :=
  ⟨[("fa", ["alpha.txt"]), ("fb", ["beta.txt"])], [],
    [("alpha.txt", some "am"), ("beta.txt", some "bm")], [],
    [("alpha.txt", some "ao"), ("beta.txt", some "bo")], [], "main"⟩

/-- Witness for C3 at the concrete two-changelist state. -/
theorem C3_branch_witness :
    (cmd_branch brRepo "fa" none).repo.branch = (none : Option String).getD "fa" ∧
    (cmd_branch brRepo "fa" none).repo.active = [("fa", ["alpha.txt"])] ∧
    wtLookup (cmd_branch brRepo "fa" none).repo.worktree "alpha.txt" =
      wtLookup brRepo.worktree "alpha.txt" ∧
    (∃ e, findStash (cmd_branch brRepo "fa" none).repo.stashed "fb" = some e ∧
      e.paths = ["beta.txt"]) ∧
    wtLookup (cmd_branch brRepo "fa" none).repo.worktree "beta.txt" =
      wtLookup brRepo.head "beta.txt" := by
  have h := C3_branch brRepo "fa" none ["alpha.txt"] (by decide) (by decide)
    (fun m l _ => rfl)
  have h4 := h.2.2.2 "fb" ["beta.txt"] (by decide) (by decide)
  exact ⟨h.1, h.2.1, h.2.2.1 "alpha.txt" (by decide), h4.1,
    h4.2 "beta.txt" (by decide)⟩

end GitCl
